import Mathlib

/-!
Shallow embedding of the tlphone package (Tulu Phone phonetic encoder).

The Go source (tlphone.go) works on UTF-8 strings; every pattern it
matches (glyph-table keys, modifier signs) is a sequence of whole runes,
and UTF-8 is self-synchronizing, so the byte-level Go operations are
modelled faithfully at the rune level: a string is its list of Unicode
code points, `List Nat`, and a Lean string literal `s` denotes the input
`runes s`.

The four glyph tables are Go maps; their iteration order is unspecified.
The embedding fixes the source declaration order.  For the regex
alternations this is irrelevant: no key of a table is a proper prefix of
another key of the same table, so at most one alternative can match at a
given position.  For the plain `strings.ReplaceAll` loops the order can
matter only when occurrences of two distinct keys overlap in the input;
no theorem below depends on such an input.
-/

namespace TLPhone

/-- Code-point sequence of a string, the rune-level view of a Go string. -/
def runes (s : String) : List Nat := s.toList.map Char.toNat

/-- ASCII left brace, the delimiter the Go code writes around completed
substitutions (removed again by the final cleanup). -/
def lbrace : Nat := 123

/-- ASCII right brace delimiter. -/
def rbrace : Nat := 125

/-- Independent vowel table, `var vowels` in tlphone.go, in declaration order. -/
def vowelsS : List (String × String) :=
  [("ಅ", "A"), ("ಆ", "A"), ("ಇ", "I"), ("ಈ", "I"), ("ಉ", "U"), ("ಊ", "U"), ("ಋ", "R"),
   ("ಎ", "E"), ("ಏ", "E"), ("ಐ", "AI"), ("ಒ", "O"), ("ಓ", "O"), ("ಔ", "O")]

/-- Consonant table, `var consonants` in tlphone.go. -/
def consonantsS : List (String × String) :=
  [("ಕ", "K"), ("ಖ", "K"), ("ಗ", "K"), ("ಘ", "K"), ("ಙ", "NG"),
   ("ಚ", "C"), ("ಛ", "C"), ("ಜ", "J"), ("ಝ", "J"), ("ಞ", "NJ"),
   ("ಟ", "T"), ("ಠ", "T"), ("ಡ", "T"), ("ಢ", "T"), ("ಣ", "N1"),
   ("ತ", "0"), ("ಥ", "0"), ("ದ", "0"), ("ಧ", "0"), ("ನ", "N"),
   ("ಪ", "P"), ("ಫ", "F"), ("ಬ", "B"), ("ಭ", "B"), ("ಮ", "M"),
   ("ಯ", "Y"), ("ರ", "R"), ("ಲ", "L"), ("ವ", "V"),
   ("ಶ", "S1"), ("ಷ", "S1"), ("ಸ", "S"), ("ಹ", "H"),
   ("ಳ", "L1"), ("ೞ", "Z"), ("ಱ", "R1")]

/-- Compound-cluster table, `var compounds` in tlphone.go. -/
def compoundsS : List (String × String) :=
  [("ಕ್ಕ", "K2"), ("ಗ್ಗಾ", "K"), ("ಙ್ಙ", "NG"),
   ("ಚ್ಚ", "C2"), ("ಜ್ಜ", "J"), ("ಞ್ಞ", "NJ"),
   ("ಟ್ಟ", "T2"), ("ಣ್ಣ", "N2"),
   ("ತ್ತ", "0"), ("ದ್ದ", "D"), ("ದ್ಧ", "D"), ("ನ್ನ", "NN"),
   ("ಬ್ಬ", "B"), ("ಪ್ಪ", "P2"), ("ಮ್ಮ", "M2"),
   ("ಯ್ಯ", "Y"), ("ಲ್ಲ", "L2"), ("ವ್ವ", "V"),
   ("ಶ್ಶ", "S1"), ("ಸ್ಸ", "S"), ("ಳ್ಳ", "L12"), ("ಕ್ಷ", "KS1")]

/-- Modifier (diacritic) table, `var modifiers` in tlphone.go. -/
def modifiersS : List (String × String) :=
  [("ಾ", ""), ("ಃ", ""), ("್", ""), ("ೃ", "R"),
   ("ಂ", "3"), ("ಿ", "4"), ("ೀ", "4"), ("ು", "5"), ("ೂ", "5"), ("ೆ", "6"),
   ("ೇ", "6"), ("ೈ", "7"), ("ೊ", "8"), ("ೋ", "8"), ("ೌ", "9"), ("ൗ", "9")]

/-- Rune-level view of a string table. -/
def toRunes (t : List (String × String)) : List (List Nat × List Nat) :=
  t.map (fun p => (runes p.1, runes p.2))

/-- Vowel table over rune lists, spelled as code points so that scanning
it reduces by pure constructor matching (the theorem vowels_src below
checks it against the string table). -/
def vowels : List (List Nat × List Nat) :=
  [([3205], [65]), ([3206], [65]), ([3207], [73]), ([3208], [73]),
   ([3209], [85]), ([3210], [85]), ([3211], [82]), ([3214], [69]),
   ([3215], [69]), ([3216], [65, 73]), ([3218], [79]), ([3219], [79]),
   ([3220], [79])]

/-- Consonant table over rune lists (checked by consonants_src). -/
def consonants : List (List Nat × List Nat) :=
  [([3221], [75]), ([3222], [75]), ([3223], [75]), ([3224], [75]),
   ([3225], [78, 71]), ([3226], [67]), ([3227], [67]), ([3228], [74]),
   ([3229], [74]), ([3230], [78, 74]), ([3231], [84]), ([3232], [84]),
   ([3233], [84]), ([3234], [84]), ([3235], [78, 49]), ([3236], [48]),
   ([3237], [48]), ([3238], [48]), ([3239], [48]), ([3240], [78]),
   ([3242], [80]), ([3243], [70]), ([3244], [66]), ([3245], [66]),
   ([3246], [77]), ([3247], [89]), ([3248], [82]), ([3250], [76]),
   ([3253], [86]), ([3254], [83, 49]), ([3255], [83, 49]), ([3256], [83]),
   ([3257], [72]), ([3251], [76, 49]), ([3294], [90]), ([3249], [82, 49])]

/-- Compound table over rune lists (checked by compounds_src). -/
def compounds : List (List Nat × List Nat) :=
  [([3221, 3277, 3221], [75, 50]), ([3223, 3277, 3223, 3262], [75]),
   ([3225, 3277, 3225], [78, 71]), ([3226, 3277, 3226], [67, 50]),
   ([3228, 3277, 3228], [74]), ([3230, 3277, 3230], [78, 74]),
   ([3231, 3277, 3231], [84, 50]), ([3235, 3277, 3235], [78, 50]),
   ([3236, 3277, 3236], [48]), ([3238, 3277, 3238], [68]),
   ([3238, 3277, 3239], [68]), ([3240, 3277, 3240], [78, 78]),
   ([3244, 3277, 3244], [66]), ([3242, 3277, 3242], [80, 50]),
   ([3246, 3277, 3246], [77, 50]), ([3247, 3277, 3247], [89]),
   ([3250, 3277, 3250], [76, 50]), ([3253, 3277, 3253], [86]),
   ([3254, 3277, 3254], [83, 49]), ([3256, 3277, 3256], [83]),
   ([3251, 3277, 3251], [76, 49, 50]), ([3221, 3277, 3255], [75, 83, 49])]

/-- Modifier table over rune lists (checked by modifiers_src). -/
def modifiers : List (List Nat × List Nat) :=
  [([3262], []), ([3203], []), ([3277], []), ([3267], [82]),
   ([3202], [51]), ([3263], [52]), ([3264], [52]), ([3265], [53]),
   ([3266], [53]), ([3270], [54]), ([3271], [54]), ([3272], [55]),
   ([3274], [56]), ([3275], [56]), ([3276], [57]), ([3415], [57])]

/-- Keys of the modifier table, the second alternation of each generated
matcher in `New` (spelled literally; checked by modifierKeys_src). -/
def modifierKeys : List (List Nat) :=
  [[3262], [3203], [3277], [3267], [3202], [3263], [3264], [3265], [3266],
   [3270], [3271], [3272], [3274], [3275], [3276], [3415]]

/-- Keys of the compound table, the first alternation of the compound
matcher (checked by compoundKeys_src). -/
def compoundKeys : List (List Nat) :=
  [[3221, 3277, 3221], [3223, 3277, 3223, 3262], [3225, 3277, 3225],
   [3226, 3277, 3226], [3228, 3277, 3228], [3230, 3277, 3230],
   [3231, 3277, 3231], [3235, 3277, 3235], [3236, 3277, 3236],
   [3238, 3277, 3238], [3238, 3277, 3239], [3240, 3277, 3240],
   [3244, 3277, 3244], [3242, 3277, 3242], [3246, 3277, 3246],
   [3247, 3277, 3247], [3250, 3277, 3250], [3253, 3277, 3253],
   [3254, 3277, 3254], [3256, 3277, 3256], [3251, 3277, 3251],
   [3221, 3277, 3255]]

/-- Keys of the consonant table (checked by consonantKeys_src). -/
def consonantKeys : List (List Nat) :=
  [[3221], [3222], [3223], [3224], [3225], [3226], [3227], [3228], [3229],
   [3230], [3231], [3232], [3233], [3234], [3235], [3236], [3237], [3238],
   [3239], [3240], [3242], [3243], [3244], [3245], [3246], [3247], [3248],
   [3250], [3253], [3254], [3255], [3256], [3257], [3251], [3294], [3249]]

/-- Keys of the vowel table (checked by vowelKeys_src). -/
def vowelKeys : List (List Nat) :=
  [[3205], [3206], [3207], [3208], [3209], [3210], [3211], [3214], [3215],
   [3216], [3218], [3219], [3220]]

/-- Whether the pattern `p` is a leading segment of `s` (Go
`strings.HasPrefix` at rune level); on success the remainder of `s`
after the match is returned. -/
def stripSeg (p s : List Nat) : Option (List Nat) :=
  List.rec (motive := fun _ => List Nat → Option (List Nat))
    (fun s => some s)
    (fun a _ ih s =>
      match s with
      | [] => none
      | c :: cs =>
        match a == c with
        | true => ih cs
        | false => none)
    p s

/-- Concatenation of rune lists (List.append, spelled with the bare
recursor so the kernel reduces it by plain iota steps). -/
def cat (a b : List Nat) : List Nat :=
  List.rec (motive := fun _ => List Nat) b (fun x _ ih => x :: ih) a

/-- Fuel-indexed scan of `strings.ReplaceAll`; the fuel list only bounds
the number of steps (one constructor per step).  Every step consumes at
least one rune of `s` (a matched `old` is nonempty), so fuel of the
length of `s` always suffices and the fuel-exhausted branch (which
returns the remaining input unchanged) is never reached from
`replaceAll`. -/
def replaceAllAux (old new : List Nat) (fuel s : List Nat) : List Nat :=
  List.rec (motive := fun _ => List Nat → List Nat)
    (fun s => s)
    (fun _ _ ih s =>
      match s with
      | [] => []
      | c :: rest =>
        match old with
        | [] => c :: ih rest
        | _ :: _ =>
          match stripSeg old (c :: rest) with
          | some rest' => cat new (ih rest')
          | none => c :: ih rest)
    fuel s

/-- Go `strings.ReplaceAll s old new`: replace the non-overlapping,
left-to-right occurrences of `old` in `s` by `new`.  The Go code never
calls it with an empty `old`; an empty `old` is treated as matching
nowhere, keeping the model total. -/
def replaceAll (s old new : List Nat) : List Nat :=
  replaceAllAux old new s s

/-- First table key that matches at the head of `s`, with the remainder
of `s`.  This is the alternation `(k1|k2|...)` of the matchers built in
`New`: since no key of a table is a proper prefix of another, at most one
alternative matches, and the alternation order is irrelevant.  An empty
alternative never occurs in the generated pattern and is skipped. -/
def matchKeyAt (keys : List (List Nat)) (s : List Nat) :
    Option (List Nat × List Nat) :=
  List.rec (motive := fun _ => Option (List Nat × List Nat))
    none
    (fun k _ ih =>
      match k with
      | [] => ih
      | _ :: _ =>
        match stripSeg k s with
        | some rest => some (k, rest)
        | none => ih)
    keys

/-- Fuel-indexed match scan; the fuel list only bounds the number of
steps.  Every step either advances one position or consumes a whole
nonempty match, so fuel of the length of `s` always suffices; the
fuel-exhausted branch (no further matches) is never reached from
`findModifiedGlyphs`. -/
def findModifiedGlyphsAux (keys mods : List (List Nat)) (fuel s : List Nat) :
    List (List Nat × List Nat) :=
  List.rec (motive := fun _ => List Nat → List (List Nat × List Nat))
    (fun _ => [])
    (fun _ _ ih s =>
      match s with
      | [] => []
      | c :: rest =>
        match matchKeyAt keys (c :: rest) with
        | some (k, rest1) =>
          match matchKeyAt mods rest1 with
          | some (m, rest2) => (k, m) :: ih rest2
          | none => ih rest
        | none => ih rest)
    fuel s

/-- All matches of the matcher `((keys)(mods))` in `s`, leftmost first and
non-overlapping, as Go `FindAllStringSubmatch(s, -1)` returns them; each
match is reported as its (glyph, modifier) pair of capture groups. -/
def findModifiedGlyphs (keys mods : List (List Nat)) (s : List Nat) :
    List (List Nat × List Nat) :=
  findModifiedGlyphsAux keys mods s s

/-- Rune-list equality, spelled with the bare recursor. -/
def eqRunes (a b : List Nat) : Bool :=
  List.rec (motive := fun _ => List Nat → Bool)
    (fun b => b.isEmpty)
    (fun x _ ih b =>
      match b with
      | [] => false
      | y :: ys =>
        match x == y with
        | true => ih ys
        | false => false)
    a b

/-- Go map lookup `glyphs[m]` on the association-list view of a table. -/
def lookupTable (t : List (List Nat × List Nat)) (k : List Nat) :
    Option (List Nat) :=
  List.rec (motive := fun _ => Option (List Nat))
    none
    (fun p _ ih =>
      match eqRunes p.1 k with
      | true => some p.2
      | false => ih)
    t

/-- One submatch replacement step of `replaceModifiedGlyphs`:
`if rep, ok := glyphs[m]; ok` then replace `m` everywhere. -/
def subStep (t : List (List Nat × List Nat)) (acc m : List Nat) : List Nat :=
  match lookupTable t m with
  | some rep => replaceAll acc m rep
  | none => acc

/-- Inner loop of `replaceModifiedGlyphs`: one match's submatch slice is
`[full, group1, group2, group3]` where `full = group1 = glyph ++ modifier`,
`group2 = glyph`, `group3 = modifier`; each submatch found in the glyph
table is replaced everywhere in the working string, in slice order (the
four-element fold is unrolled). -/
def applySubmatches (t : List (List Nat × List Nat)) (inp : List Nat)
    (km : List Nat × List Nat) : List Nat :=
  subStep t (subStep t (subStep t (subStep t inp (cat km.1 km.2)) (cat km.1 km.2)) km.1) km.2

/-- Method `replaceModifiedGlyphs` of tlphone.go: the matches are computed
once on the incoming string, then each match's submatches that are table
keys are replaced globally, in match order, on the evolving string (a
left fold over the match list). -/
def replaceModifiedGlyphs (t : List (List Nat × List Nat))
    (keys : List (List Nat)) (s : List Nat) : List Nat :=
  List.rec (motive := fun _ => List Nat → List Nat)
    (fun acc => acc)
    (fun km _ ih acc => ih (applySubmatches t acc km))
    (findModifiedGlyphs keys modifierKeys s) s

/-- Delimiter-wrapped code written by the unmodified-glyph passes. -/
def wrapBraces (v : List Nat) : List Nat := lbrace :: cat v [rbrace]

/-- One `for k, v := range table` loop of `process` that replaces each key
by its brace-wrapped code (a left fold over the table). -/
def replaceTableWrapped (t : List (List Nat × List Nat)) (s : List Nat) :
    List Nat :=
  List.rec (motive := fun _ => List Nat → List Nat)
    (fun acc => acc)
    (fun p _ ih acc => ih (replaceAll acc p.1 (wrapBraces p.2)))
    t s

/-- Final `for k, v := range modifiers` loop of `process`: plain
(unwrapped) replacement of every modifier by its code. -/
def replaceTablePlain (t : List (List Nat × List Nat)) (s : List Nat) :
    List Nat :=
  List.rec (motive := fun _ => List Nat → List Nat)
    (fun acc => acc)
    (fun p _ ih acc => ih (replaceAll acc p.1 p.2))
    t s

/-- Character class `[^0-9A-Z]` (regexAlphaNum) — this predicate keeps the
complement, i.e. exactly the ASCII digits (code points 48-57) and
uppercase letters (65-90). -/
def isAlphaNumUpper (c : Nat) : Bool :=
  (decide (48 ≤ c) && decide (c ≤ 57)) || (decide (65 ≤ c) && decide (c ≤ 90))

/-- Code-point ranges of the Unicode script Kannada, as Go's
`unicode.Kannada` table used by `\p{Kannada}` in regexNonTulu. -/
def kannadaRanges : List (Nat × Nat) :=
  [(0x0C80, 0x0C8C), (0x0C8E, 0x0C90), (0x0C92, 0x0CA8), (0x0CAA, 0x0CB3),
   (0x0CB5, 0x0CB9), (0x0CBC, 0x0CC4), (0x0CC6, 0x0CC8), (0x0CCA, 0x0CCD),
   (0x0CD5, 0x0CD6), (0x0CDD, 0x0CDE), (0x0CE0, 0x0CE3), (0x0CE6, 0x0CEF),
   (0x0CF1, 0x0CF3)]

/-- Membership in the Kannada script: the character class kept by
`regexNonTulu`'s complement.  Spelled as an explicit disjunction of the
thirteen ranges (checked against the range list by isKannada_ranges). -/
def isKannada (c : Nat) : Bool :=
  (decide (0x0C80 ≤ c) && decide (c ≤ 0x0C8C)) ||
  (decide (0x0C8E ≤ c) && decide (c ≤ 0x0C90)) ||
  (decide (0x0C92 ≤ c) && decide (c ≤ 0x0CA8)) ||
  (decide (0x0CAA ≤ c) && decide (c ≤ 0x0CB3)) ||
  (decide (0x0CB5 ≤ c) && decide (c ≤ 0x0CB9)) ||
  (decide (0x0CBC ≤ c) && decide (c ≤ 0x0CC4)) ||
  (decide (0x0CC6 ≤ c) && decide (c ≤ 0x0CC8)) ||
  (decide (0x0CCA ≤ c) && decide (c ≤ 0x0CCD)) ||
  (decide (0x0CD5 ≤ c) && decide (c ≤ 0x0CD6)) ||
  (decide (0x0CDD ≤ c) && decide (c ≤ 0x0CDE)) ||
  (decide (0x0CE0 ≤ c) && decide (c ≤ 0x0CE3)) ||
  (decide (0x0CE6 ≤ c) && decide (c ≤ 0x0CEF)) ||
  (decide (0x0CF1 ≤ c) && decide (c ≤ 0x0CF3))

/-- White-space predicate of Go `unicode.IsSpace` (the Latin-1 cases plus
the White_Space property). -/
def isGoSpace (c : Nat) : Bool :=
  [9, 10, 11, 12, 13, 32, 0x85, 0xA0, 0x1680, 0x2028, 0x2029, 0x202F,
     0x205F, 0x3000].contains c ||
    (decide (0x2000 ≤ c) && decide (c ≤ 0x200A))

/-- Go `strings.TrimSpace`: drop leading and trailing white space. -/
def trimSpace (s : List Nat) : List Nat :=
  ((s.dropWhile isGoSpace).reverse.dropWhile isGoSpace).reverse

/-- Substitution stages of `process` (everything after the script filter
and before the final cleanup), on the already scrubbed string: the two
compound passes, the modified and plain consonant and vowel passes, and
the modifier pass. -/
def processCore (s0 : List Nat) : List Nat :=
  let s1 := replaceModifiedGlyphs compounds compoundKeys s0
  let s2 := replaceTableWrapped compounds s1
  let s3 := replaceModifiedGlyphs consonants consonantKeys s2
  let s4 := replaceModifiedGlyphs vowels vowelKeys s3
  let s5 := replaceTableWrapped consonants s4
  let s6 := replaceTableWrapped vowels s5
  replaceTablePlain modifiers s6

/-- Substitution stages followed by the `regexAlphaNum` cleanup. -/
def processScrubbed (s0 : List Nat) : List Nat :=
  (processCore s0).filter isAlphaNumUpper

/-- Method `process` of tlphone.go: trim white space, delete every
non-Kannada character (regexNonTulu), then run the substitution passes. -/
def process (input : List Nat) : List Nat :=
  processScrubbed ((trimSpace input).filter isKannada)

/-- Character class `[2,4-9]` (regexKey1): the comma, the digit 2 and the
digits 4 through 9 (code points 44, 50 and 52-57). -/
def classKey1 (c : Nat) : Bool :=
  decide (c = 44) || decide (c = 50) || (decide (52 ≤ c) && decide (c ≤ 57))

/-- Character class `[1,2,4-9]` (regexKey0): additionally the digit 1
(code point 49). -/
def classKey0 (c : Nat) : Bool :=
  decide (c = 44) || decide (c = 49) || decide (c = 50) ||
    (decide (52 ≤ c) && decide (c ≤ 57))

/-- Method `Encode` of tlphone.go: key2 is the processed string, key1 and
key0 delete the classKey1 resp. classKey0 characters from key2
(`ReplaceAllString(key2, "")`), and the triple (key0, key1, key2) is
returned. -/
def Encode (input : List Nat) : List Nat × List Nat × List Nat :=
  let key2 := process input
  let key1 := key2.filter (fun c => !classKey1 c)
  let key0 := key2.filter (fun c => !classKey0 c)
  (key0, key1, key2)

/-- Code points of the digits 2,4,5,6,7,8,9 that the spec says are
removed from key2 to obtain key1. -/
def digitsKey1Spec : List Nat := [50, 52, 53, 54, 55, 56, 57]

/-- Code points of the digits 1,2,4,5,6,7,8,9 that the spec says are
removed from key2 to obtain key0. -/
def digitsKey0Spec : List Nat := [49, 50, 52, 53, 54, 55, 56, 57]

/-- ASCII digit runes: code points 48 through 57. -/
def isDigitRune (c : Nat) : Bool := decide (48 ≤ c) && decide (c ≤ 57)

/-- Whether `old` occurs as a contiguous segment anywhere in `s`: the scan
mirrors the positions strings.ReplaceAll inspects. -/
def occursB (old s : List Nat) : Bool :=
  List.rec (motive := fun _ => Bool)
    false
    (fun c rest ih =>
      (stripSeg old (c :: rest)).isSome || ih)
    s

/-! Source-table checks for the literal tables used by the pipeline. -/

/-- Literal vowel table agrees with the source string table. -/
theorem vowels_src : vowels = toRunes vowelsS := by decide

/-- Literal consonant table agrees with the source string table. -/
theorem consonants_src : consonants = toRunes consonantsS := by decide

/-- Literal compound table agrees with the source string table. -/
theorem compounds_src : compounds = toRunes compoundsS := by decide

/-- Literal modifier table agrees with the source string table. -/
theorem modifiers_src : modifiers = toRunes modifiersS := by decide

/-- Literal modifier-key list agrees with the modifier table. -/
theorem modifierKeys_src : modifierKeys = modifiers.map (fun p => p.1) := by decide

/-- Literal compound-key list agrees with the compound table. -/
theorem compoundKeys_src : compoundKeys = compounds.map (fun p => p.1) := by decide

/-- Literal consonant-key list agrees with the consonant table. -/
theorem consonantKeys_src : consonantKeys = consonants.map (fun p => p.1) := by decide

/-- Literal vowel-key list agrees with the vowel table. -/
theorem vowelKeys_src : vowelKeys = vowels.map (fun p => p.1) := by decide

/-- The unfolded isKannada agrees with the range-list form. -/
theorem isKannada_ranges (c : Nat) :
    isKannada c = kannadaRanges.any (fun r => decide (r.1 ≤ c) && decide (c ≤ r.2)) := by
  simp only [kannadaRanges, List.any_cons, List.any_nil, Bool.or_false, isKannada,
    Bool.or_assoc]

/-! Basic structure of the three keys. -/

/-- key0 is the classKey0 filter of the processed string. -/
theorem encode_key0 (s : List Nat) :
    (Encode s).1 = (process s).filter (fun c => !classKey0 c) := rfl

/-- key1 is the classKey1 filter of the processed string. -/
theorem encode_key1 (s : List Nat) :
    (Encode s).2.1 = (process s).filter (fun c => !classKey1 c) := rfl

/-- key2 is the processed string. -/
theorem encode_key2 (s : List Nat) : (Encode s).2.2 = process s := rfl

/-- Every rune of a processed string is an ASCII digit or uppercase
letter, because `process` ends with the regexAlphaNum cleanup. -/
theorem mem_process_alnum {c : Nat} {s : List Nat} (h : c ∈ process s) :
    isAlphaNumUpper c = true :=
  (List.mem_filter.mp h).2

/-- Runes of key0 and key1 come from key2 (they are filters of it). -/
theorem mem_key0_process {c : Nat} {s : List Nat} (h : c ∈ (Encode s).1) :
    c ∈ process s ∧ classKey0 c = false := by
  rw [encode_key0] at h
  rcases List.mem_filter.mp h with ⟨hm, hp⟩
  exact ⟨hm, by simpa using hp⟩

/-- Runes of key1 come from key2, outside the classKey1 class. -/
theorem mem_key1_process {c : Nat} {s : List Nat} (h : c ∈ (Encode s).2.1) :
    c ∈ process s ∧ classKey1 c = false := by
  rw [encode_key1] at h
  rcases List.mem_filter.mp h with ⟨hm, hp⟩
  exact ⟨hm, by simpa using hp⟩

/-- C2: for every input string s, Encode(s) terminates (it is a total Lean
function) and returns exactly three strings whose runes all lie in the
class [0-9A-Z]. -/
theorem encode_total_alnum (s : List Nat) :
    ((Encode s).1.all isAlphaNumUpper && (Encode s).2.1.all isAlphaNumUpper &&
      (Encode s).2.2.all isAlphaNumUpper) = true := by
  simp only [Bool.and_eq_true, List.all_eq_true]
  refine ⟨⟨fun c hc => ?_, fun c hc => ?_⟩, fun c hc => ?_⟩
  · exact mem_process_alnum (mem_key0_process hc).1
  · exact mem_process_alnum (mem_key1_process hc).1
  · exact mem_process_alnum (by rwa [encode_key2] at hc)

/-- On runes other than the comma (code point 44), the classKey1
character class is exactly the digit set 2,4-9. -/
theorem classKey1_eq_digits {c : Nat} (h : c ≠ 44) :
    classKey1 c = digitsKey1Spec.contains c := by
  simp only [classKey1, digitsKey1Spec, List.contains_cons, List.contains_nil,
    Bool.or_false]
  rw [Bool.eq_iff_iff]
  simp only [Bool.or_eq_true, Bool.and_eq_true, decide_eq_true_eq, beq_iff_eq]
  omega

/-- On runes other than the comma, the classKey0 character class is
exactly the digit set 1,2,4-9. -/
theorem classKey0_eq_digits {c : Nat} (h : c ≠ 44) :
    classKey0 c = digitsKey0Spec.contains c := by
  simp only [classKey0, digitsKey0Spec, List.contains_cons, List.contains_nil,
    Bool.or_false]
  rw [Bool.eq_iff_iff]
  simp only [Bool.or_eq_true, Bool.and_eq_true, decide_eq_true_eq, beq_iff_eq]
  omega

/-- An alphanumeric rune is not the comma. -/
theorem alnum_ne_comma {c : Nat} (h : isAlphaNumUpper c = true) : c ≠ 44 := by
  simp only [isAlphaNumUpper, Bool.or_eq_true, Bool.and_eq_true,
    decide_eq_true_eq] at h
  omega

/-- C3: key1 equals key2 with every digit in 2,4,5,6,7,8,9 removed and
nothing else changed, and key0 equals key2 with every digit in
1,2,4,5,6,7,8,9 removed and nothing else changed — both are pure
character filters applied to key2. -/
theorem key_derivation_filters (s : List Nat) :
    (Encode s).2.1 = ((Encode s).2.2).filter (fun c => !digitsKey1Spec.contains c) ∧
    (Encode s).1 = ((Encode s).2.2).filter (fun c => !digitsKey0Spec.contains c) := by
  constructor
  · rw [encode_key1, encode_key2]
    exact List.filter_congr fun c hc => by
      rw [classKey1_eq_digits (alnum_ne_comma (mem_process_alnum hc))]
  · rw [encode_key0, encode_key2]
    exact List.filter_congr fun c hc => by
      rw [classKey0_eq_digits (alnum_ne_comma (mem_process_alnum hc))]

/-- A rune in the classKey1 class is also in the classKey0 class. -/
theorem classKey0_of_classKey1 {c : Nat} (h : classKey1 c = true) :
    classKey0 c = true := by
  simp only [classKey1, Bool.or_eq_true, Bool.and_eq_true, decide_eq_true_eq] at h
  simp only [classKey0, Bool.or_eq_true, Bool.and_eq_true, decide_eq_true_eq]
  omega

/-- C4: key1 is a subsequence of key2 (obtainable by deletions only), and
key0 is a subsequence of key1: monotonic lossiness holds for all inputs. -/
theorem monotonic_lossiness (s : List Nat) :
    List.Sublist ((Encode s).2.1) ((Encode s).2.2) ∧
    List.Sublist ((Encode s).1) ((Encode s).2.1) := by
  constructor
  · rw [encode_key1, encode_key2]
    exact List.filter_sublist _
  · rw [encode_key0, encode_key1]
    refine List.monotone_filter_right _ fun c hc => ?_
    cases h1 : classKey1 c with
    | false => simp
    | true =>
      exfalso
      have h0 := classKey0_of_classKey1 h1
      simp [h0] at hc

/-- Keeping the digit 0 (code point 48) commutes with the classKey0
filter: the digit 0 is never in the removed class. -/
theorem zero_filter_key0 (l : List Nat) :
    (l.filter (fun c => !classKey0 c)).filter (fun c => c == 48) =
      l.filter (fun c => c == 48) := by
  rw [List.filter_filter]
  refine List.filter_congr fun c _ => ?_
  cases h : (c == 48) with
  | false => simp
  | true =>
    have hc : c = 48 := by simpa using h
    subst hc
    rfl

/-- Keeping the digit 0 commutes with the classKey1 filter. -/
theorem zero_filter_key1 (l : List Nat) :
    (l.filter (fun c => !classKey1 c)).filter (fun c => c == 48) =
      l.filter (fun c => c == 48) := by
  rw [List.filter_filter]
  refine List.filter_congr fun c _ => ?_
  cases h : (c == 48) with
  | false => simp
  | true =>
    have hc : c = 48 := by simpa using h
    subst hc
    rfl

/-- C7: the digit 0 (code point 48, the dental-consonant marker) is never
stripped by key derivation: the subsequence of 0-runes is the same in
key0, key1 and key2. -/
theorem digit_zero_stable (s : List Nat) :
    (Encode s).1.filter (fun c => c == 48) =
      (Encode s).2.2.filter (fun c => c == 48) ∧
    (Encode s).2.1.filter (fun c => c == 48) =
      (Encode s).2.2.filter (fun c => c == 48) := by
  refine ⟨?_, ?_⟩
  · rw [encode_key0, encode_key2]
    exact zero_filter_key0 _
  · rw [encode_key1, encode_key2]
    exact zero_filter_key1 _

/-- C10: key0 contains no digit other than 0 and 3 (code points 48, 51),
and key1 none other than 0, 1 and 3 (48, 49, 51): the nasalization
marker 3 survives even in the broadest key. -/
theorem surviving_digits (s : List Nat) :
    ((Encode s).1.all (fun c => !isDigitRune c || (c == 48 || c == 51))) = true ∧
    ((Encode s).2.1.all
      (fun c => !isDigitRune c || (c == 48 || c == 49 || c == 51))) = true := by
  constructor
  · rw [List.all_eq_true]
    intro c hc
    rcases mem_key0_process hc with ⟨hm, hp⟩
    have ha := mem_process_alnum hm
    simp only [isAlphaNumUpper, Bool.or_eq_true, Bool.and_eq_true,
      decide_eq_true_eq] at ha
    simp only [classKey0, Bool.or_eq_false_iff, Bool.and_eq_false_iff,
      decide_eq_false_iff_not] at hp
    simp only [isDigitRune, Bool.or_eq_true, Bool.not_eq_true',
      Bool.and_eq_false_iff, decide_eq_false_iff_not, beq_iff_eq,
      Bool.and_eq_true, decide_eq_true_eq]
    omega
  · rw [List.all_eq_true]
    intro c hc
    rcases mem_key1_process hc with ⟨hm, hp⟩
    have ha := mem_process_alnum hm
    simp only [isAlphaNumUpper, Bool.or_eq_true, Bool.and_eq_true,
      decide_eq_true_eq] at ha
    simp only [classKey1, Bool.or_eq_false_iff, Bool.and_eq_false_iff,
      decide_eq_false_iff_not] at hp
    simp only [isDigitRune, Bool.or_eq_true, Bool.not_eq_true',
      Bool.and_eq_false_iff, decide_eq_false_iff_not, beq_iff_eq,
      Bool.and_eq_true, decide_eq_true_eq]
    omega

/-- C1: the six reference test vectors of tlphone_test.go: Encode maps
each fixture input to exactly the listed (key0, key1, key2) triple. -/
theorem encode_reference_vectors :
    Encode (runes "ತುಂಬಾ") = (runes "03B", runes "03B", runes "053B") ∧
    Encode (runes "ಮಕ್ಕಳು") = (runes "MKL", runes "MKL1", runes "MK2L15") ∧
    Encode (runes "ಬಂಗಾರಾ") = (runes "B3KR", runes "B3KR", runes "B3KR") ∧
    Encode (runes "ಅನುಗ್ರಹ") = (runes "ANKRH", runes "ANKRH", runes "AN5KRH") ∧
    Encode (runes "ವೃತ್ತಿ") = (runes "VR0", runes "VR0", runes "VR04") ∧
    Encode (runes "ಅಧ್ಯಕ್ಷ") = (runes "A0YKS", runes "A0YKS1", runes "A0YKS1") :=
  ⟨rfl, rfl, rfl, rfl, rfl, rfl⟩

/-- C9: a modifier with no preceding base glyph is still encoded: the
anusvara sign alone yields the digit 3 in all three keys. -/
theorem lone_modifier_encoded :
    Encode (runes "ಂ") = (runes "3", runes "3", runes "3") := rfl

/-- Membership in a trimmed string implies membership in the original. -/
theorem mem_of_mem_trimSpace {c : Nat} {s : List Nat} (h : c ∈ trimSpace s) :
    c ∈ s := by
  unfold trimSpace at h
  rw [List.mem_reverse] at h
  have h1 := (List.dropWhile_sublist isGoSpace).subset h
  rw [List.mem_reverse] at h1
  exact (List.dropWhile_sublist isGoSpace).subset h1

/-- The substitution stages send the empty string to the empty string. -/
theorem processScrubbed_nil : processScrubbed [] = [] := rfl

/-- C6: for every input that is empty or contains no Kannada-script
rune, Encode returns three empty strings. -/
theorem no_script_empty_keys (s : List Nat) (h : ∀ c ∈ s, isKannada c = false) :
    Encode s = ([], [], []) := by
  have hfil : (trimSpace s).filter isKannada = [] :=
    List.filter_eq_nil_iff.mpr fun c hc => by
      rw [h c (mem_of_mem_trimSpace hc)]
      exact Bool.false_ne_true
  show (let key2 := process s
        let key1 := key2.filter (fun c => !classKey1 c)
        let key0 := key2.filter (fun c => !classKey0 c)
        (key0, key1, key2)) = ([], [], [])
  rw [show process s = processScrubbed ((trimSpace s).filter isKannada) from rfl,
    hfil, processScrubbed_nil]
  rfl

/-- Witness for C6 at the concrete non-script input "hello! 123". -/
theorem no_script_empty_keys_witness :
    (∀ c ∈ runes "hello! 123", isKannada c = false) ∧
    Encode (runes "hello! 123") = ([], [], []) :=
  ⟨by decide, no_script_empty_keys (runes "hello! 123") (by decide)⟩

/-! Matching machinery for the compound-precedence theorem: how stripSeg,
occursB, replaceAll and the match scan behave on strings assembled from
independent parts. -/

/-- stripSeg with an empty pattern returns the whole string. -/
theorem stripSeg_nil (s : List Nat) : stripSeg [] s = some s := rfl

/-- stripSeg of a nonempty pattern against the empty string fails. -/
theorem stripSeg_cons_nil (a : Nat) (p : List Nat) :
    stripSeg (a :: p) [] = none := rfl

/-- Unfolding of stripSeg on two cons cells. -/
theorem stripSeg_cons_cons (a : Nat) (p : List Nat) (b : Nat) (s : List Nat) :
    stripSeg (a :: p) (b :: s) = cond (a == b) (stripSeg p s) none := by
  show (match a == b with
        | true => stripSeg p s
        | false => none) = _
  cases a == b <;> rfl

/-- stripSeg succeeds exactly when the string splits as pattern followed
by remainder. -/
theorem stripSeg_some_iff {p s r : List Nat} :
    stripSeg p s = some r ↔ s = p ++ r := by
  induction p generalizing s with
  | nil =>
    rw [stripSeg_nil]
    simp
  | cons a ps ih =>
    cases s with
    | nil =>
      rw [stripSeg_cons_nil]
      simp
    | cons b t =>
      rw [stripSeg_cons_cons]
      by_cases h : a = b
      · subst h
        rw [beq_self_eq_true, cond_true, ih]
        simp
      · rw [beq_eq_false_iff_ne.mpr h, cond_false]
        simp [Ne.symm h]

/-- A pattern strips its own append. -/
theorem stripSeg_self_append (p r : List Nat) : stripSeg p (p ++ r) = some r :=
  stripSeg_some_iff.mpr rfl

/-- A pattern longer than the string never matches. -/
theorem stripSeg_none_of_short {p s : List Nat} (h : s.length < p.length) :
    stripSeg p s = none := by
  cases hs : stripSeg p s with
  | none => rfl
  | some r =>
    have := stripSeg_some_iff.mp hs
    subst this
    rw [List.length_append] at h
    omega

/-- occursB on the empty string. -/
theorem occursB_nil (old : List Nat) : occursB old [] = false := rfl

/-- Unfolding of occursB on a cons cell. -/
theorem occursB_cons (old : List Nat) (c : Nat) (rest : List Nat) :
    occursB old (c :: rest) =
      ((stripSeg old (c :: rest)).isSome || occursB old rest) := rfl

/-- If old does not occur in s, it fails to match at every nonempty
suffix of s. -/
theorem stripSeg_none_of_not_occurs {old s t : List Nat}
    (h : occursB old s = false) (ht : t <:+ s) (hne : t ≠ []) :
    stripSeg old t = none := by
  induction s with
  | nil =>
    rw [List.suffix_nil] at ht
    exact absurd ht hne
  | cons c rest ih =>
    rw [occursB_cons, Bool.or_eq_false_iff] at h
    rcases List.suffix_cons_iff.mp ht with rfl | ht'
    · cases hs : stripSeg old (c :: rest) with
      | none => rfl
      | some r =>
        rw [hs] at h
        simp at h
    · exact ih h.2 ht'

/-- A single-rune pattern occurs exactly when the rune is an element. -/
theorem occursB_single (r : Nat) (s : List Nat) :
    occursB [r] s = s.contains r := by
  induction s with
  | nil => rfl
  | cons c rest ih =>
    rw [occursB_cons, stripSeg_cons_cons, List.contains_cons, ih]
    cases h : r == c <;> simp [h, stripSeg_nil]

/-- A pattern longer than the string does not occur in it. -/
theorem occursB_of_long {old s : List Nat} (h : s.length < old.length) :
    occursB old s = false := by
  induction s with
  | nil => rfl
  | cons c rest ih =>
    rw [occursB_cons, stripSeg_none_of_short h, ih]
    · rfl
    · simp at h ⊢
      omega

/-- cat is list concatenation. -/
theorem cat_eq_append (a b : List Nat) : cat a b = a ++ b := by
  induction a with
  | nil => rfl
  | cons x xs ih =>
    show x :: cat xs b = _
    rw [ih]
    rfl

/-- replaceAllAux with exhausted fuel returns the string unchanged. -/
theorem replaceAllAux_fuel_nil (old new s : List Nat) :
    replaceAllAux old new [] s = s := rfl

/-- replaceAllAux on the empty string. -/
theorem replaceAllAux_str_nil (old new : List Nat) (f : Nat) (fs : List Nat) :
    replaceAllAux old new (f :: fs) [] = [] := rfl

/-- replaceAllAux step with an empty pattern copies the head rune. -/
theorem replaceAllAux_old_nil (new : List Nat) (f : Nat) (fs : List Nat)
    (c : Nat) (rest : List Nat) :
    replaceAllAux [] new (f :: fs) (c :: rest) =
      c :: replaceAllAux [] new fs rest := rfl

/-- replaceAllAux step on a matching position. -/
theorem replaceAllAux_cons_some {o : Nat} {os rest' : List Nat}
    (new : List Nat) (f : Nat) (fs : List Nat) (c : Nat) (rest : List Nat)
    (hs : stripSeg (o :: os) (c :: rest) = some rest') :
    replaceAllAux (o :: os) new (f :: fs) (c :: rest) =
      cat new (replaceAllAux (o :: os) new fs rest') := by
  show (match stripSeg (o :: os) (c :: rest) with
        | some r => cat new (replaceAllAux (o :: os) new fs r)
        | none => c :: replaceAllAux (o :: os) new fs rest) = _
  rw [hs]

/-- replaceAllAux step on a non-matching position. -/
theorem replaceAllAux_cons_none {o : Nat} {os : List Nat}
    (new : List Nat) (f : Nat) (fs : List Nat) (c : Nat) (rest : List Nat)
    (hs : stripSeg (o :: os) (c :: rest) = none) :
    replaceAllAux (o :: os) new (f :: fs) (c :: rest) =
      c :: replaceAllAux (o :: os) new fs rest := by
  show (match stripSeg (o :: os) (c :: rest) with
        | some r => cat new (replaceAllAux (o :: os) new fs r)
        | none => c :: replaceAllAux (o :: os) new fs rest) = _
  rw [hs]

/-- The fuel argument of replaceAllAux is irrelevant as long as it is at
least as long as the string being scanned. -/
theorem replaceAllAux_fuel {old new : List Nat} (f1 f2 s : List Nat)
    (h1 : s.length ≤ f1.length) (h2 : s.length ≤ f2.length) :
    replaceAllAux old new f1 s = replaceAllAux old new f2 s := by
  induction f1 generalizing f2 s with
  | nil =>
    cases s with
    | nil => cases f2 <;> rfl
    | cons c rest => simp at h1
  | cons f fs ih =>
    cases s with
    | nil => cases f2 with
      | nil => rfl
      | cons g gs => rfl
    | cons c rest =>
      cases f2 with
      | nil => simp at h2
      | cons g gs =>
        simp only [List.length_cons, Nat.succ_le_succ_iff] at h1 h2
        cases old with
        | nil =>
          rw [replaceAllAux_old_nil, replaceAllAux_old_nil]
          exact congrArg _ (ih gs rest h1 h2)
        | cons o os =>
          cases hs : stripSeg (o :: os) (c :: rest) with
          | some rest' =>
            have hlen : rest'.length ≤ rest.length := by
              have hd := stripSeg_some_iff.mp hs
              have hl : (c :: rest).length = (o :: os).length + rest'.length := by
                rw [hd, List.length_append]
              simp at hl
              omega
            rw [replaceAllAux_cons_some _ _ _ _ _ hs,
              replaceAllAux_cons_some _ _ _ _ _ hs]
            exact congrArg _ (ih gs rest' (le_trans hlen h1) (le_trans hlen h2))
          | none =>
            rw [replaceAllAux_cons_none _ _ _ _ _ hs,
              replaceAllAux_cons_none _ _ _ _ _ hs]
            exact congrArg _ (ih gs rest h1 h2)

/-- replaceAll on the empty string. -/
theorem replaceAll_nil (old new : List Nat) : replaceAll [] old new = [] := rfl

/-- replaceAll leaves a string without occurrences unchanged. -/
theorem replaceAll_no_occur {old s : List Nat} (new : List Nat)
    (h : occursB old s = false) : replaceAll s old new = s := by
  suffices H : ∀ fuel s : List Nat, occursB old s = false →
      s.length ≤ fuel.length → replaceAllAux old new fuel s = s from
    H s s h le_rfl
  intro fuel
  induction fuel with
  | nil =>
    intro s _ hl
    cases s with
    | nil => rfl
    | cons c rest => simp at hl
  | cons f fs ih =>
    intro s hocc hl
    cases s with
    | nil => rfl
    | cons c rest =>
      rw [occursB_cons, Bool.or_eq_false_iff] at hocc
      simp only [List.length_cons, Nat.succ_le_succ_iff] at hl
      cases old with
      | nil =>
        rw [stripSeg_nil] at hocc
        simp at hocc
      | cons o os =>
        have hs : stripSeg (o :: os) (c :: rest) = none := by
          cases hs' : stripSeg (o :: os) (c :: rest) with
          | none => rfl
          | some r =>
            rw [hs'] at hocc
            simp at hocc
        rw [replaceAllAux_cons_none _ _ _ _ _ hs]
        exact congrArg _ (ih rest hocc.2 hl)

/-- replaceAll at a matching head position: the match is replaced and the
scan continues after it. -/
theorem replaceAll_head_match {o : Nat} {os rest' : List Nat} {c : Nat}
    {rest : List Nat} (new : List Nat)
    (hs : stripSeg (o :: os) (c :: rest) = some rest') :
    replaceAll (c :: rest) (o :: os) new =
      cat new (replaceAll rest' (o :: os) new) := by
  have hlen : rest'.length ≤ rest.length := by
    have hd := stripSeg_some_iff.mp hs
    have hl : (c :: rest).length = (o :: os).length + rest'.length := by
      rw [hd, List.length_append]
    simp at hl
    omega
  show replaceAllAux (o :: os) new (c :: rest) (c :: rest) = _
  rw [replaceAllAux_cons_some _ _ _ _ _ hs]
  exact congrArg _ (replaceAllAux_fuel rest rest' rest' hlen le_rfl)

/-- Replacing a single rune that appears only as the last element. -/
theorem replaceAll_append_last {x : List Nat} {c : Nat} (n : List Nat)
    (hc : c ∉ x) : replaceAll (x ++ [c]) [c] n = x ++ n := by
  induction x with
  | nil =>
    have hs : stripSeg [c] ([c] : List Nat) = some [] := stripSeg_self_append [c] []
    show replaceAllAux [c] n [c] [c] = n
    rw [replaceAllAux_cons_some _ _ _ _ _ hs]
    rw [show replaceAllAux [c] n [] [] = [] from rfl, cat_eq_append, List.append_nil]
  | cons a x' ih =>
    have hne : c ≠ a := fun h => hc (h ▸ List.mem_cons_self a x')
    have hs : stripSeg [c] (a :: (x' ++ [c])) = none := by
      rw [stripSeg_cons_cons, beq_eq_false_iff_ne.mpr hne, cond_false]
    show replaceAllAux [c] n (a :: (x' ++ [c])) (a :: (x' ++ [c])) = a :: (x' ++ n)
    rw [replaceAllAux_cons_none _ _ _ _ _ hs]
    exact congrArg _ (ih fun h => hc (List.mem_cons_of_mem a h))

/-- replaceTableWrapped on the empty table. -/
theorem replaceTableWrapped_nil (s : List Nat) :
    replaceTableWrapped [] s = s := rfl

/-- One step of replaceTableWrapped. -/
theorem replaceTableWrapped_cons (p : List Nat × List Nat)
    (t : List (List Nat × List Nat)) (s : List Nat) :
    replaceTableWrapped (p :: t) s =
      replaceTableWrapped t (replaceAll s p.1 (wrapBraces p.2)) := rfl

/-- replaceTablePlain on the empty table. -/
theorem replaceTablePlain_nil (s : List Nat) : replaceTablePlain [] s = s := rfl

/-- One step of replaceTablePlain. -/
theorem replaceTablePlain_cons (p : List Nat × List Nat)
    (t : List (List Nat × List Nat)) (s : List Nat) :
    replaceTablePlain (p :: t) s =
      replaceTablePlain t (replaceAll s p.1 p.2) := rfl

/-- A wrapped-replacement fold over entries none of whose keys occur
leaves the string unchanged. -/
theorem replaceTableWrapped_no_occur {t : List (List Nat × List Nat)}
    {s : List Nat} (h : ∀ p ∈ t, occursB p.1 s = false) :
    replaceTableWrapped t s = s := by
  induction t with
  | nil => rfl
  | cons p t' ih =>
    rw [replaceTableWrapped_cons,
      replaceAll_no_occur _ (h p (List.mem_cons_self p t'))]
    exact ih fun q hq => h q (List.mem_cons_of_mem p hq)

/-- A plain-replacement fold over entries none of whose keys occur leaves
the string unchanged. -/
theorem replaceTablePlain_no_occur {t : List (List Nat × List Nat)}
    {s : List Nat} (h : ∀ p ∈ t, occursB p.1 s = false) :
    replaceTablePlain t s = s := by
  induction t with
  | nil => rfl
  | cons p t' ih =>
    rw [replaceTablePlain_cons,
      replaceAll_no_occur _ (h p (List.mem_cons_self p t'))]
    exact ih fun q hq => h q (List.mem_cons_of_mem p hq)

/-- matchKeyAt with no alternatives. -/
theorem matchKeyAt_nil_keys (s : List Nat) : matchKeyAt [] s = none := rfl

/-- matchKeyAt skips an empty alternative. -/
theorem matchKeyAt_cons_nil_key (ks : List (List Nat)) (s : List Nat) :
    matchKeyAt ([] :: ks) s = matchKeyAt ks s := rfl

/-- matchKeyAt returns the first alternative that matches. -/
theorem matchKeyAt_cons_hit {a : Nat} {ps s rest : List Nat}
    (ks : List (List Nat)) (hs : stripSeg (a :: ps) s = some rest) :
    matchKeyAt ((a :: ps) :: ks) s = some (a :: ps, rest) := by
  show (match stripSeg (a :: ps) s with
        | some r => some (a :: ps, r)
        | none => matchKeyAt ks s) = _
  rw [hs]

/-- matchKeyAt moves on past a failing alternative. -/
theorem matchKeyAt_cons_miss {a : Nat} {ps s : List Nat}
    (ks : List (List Nat)) (hs : stripSeg (a :: ps) s = none) :
    matchKeyAt ((a :: ps) :: ks) s = matchKeyAt ks s := by
  show (match stripSeg (a :: ps) s with
        | some r => some (a :: ps, r)
        | none => matchKeyAt ks s) = _
  rw [hs]

/-- If every nonempty alternative fails, the alternation fails. -/
theorem matchKeyAt_none {keys : List (List Nat)} {s : List Nat}
    (h : ∀ k ∈ keys, k ≠ [] → stripSeg k s = none) :
    matchKeyAt keys s = none := by
  induction keys with
  | nil => rfl
  | cons k ks ih =>
    cases k with
    | nil =>
      rw [matchKeyAt_cons_nil_key]
      exact ih fun k' hk' => h k' (List.mem_cons_of_mem _ hk')
    | cons a ps =>
      rw [matchKeyAt_cons_miss _ (h _ (List.mem_cons_self _ _) (by simp))]
      exact ih fun k' hk' => h k' (List.mem_cons_of_mem _ hk')

/-- If exactly one alternative matches, matchKeyAt returns it, regardless
of the alternation order. -/
theorem matchKeyAt_unique {keys : List (List Nat)} {k s rest : List Nat}
    (hk : k ∈ keys) (hne : k ≠ []) (hs : stripSeg k s = some rest)
    (hothers : ∀ k' ∈ keys, k' ≠ k → k' ≠ [] → stripSeg k' s = none) :
    matchKeyAt keys s = some (k, rest) := by
  induction keys with
  | nil => cases hk
  | cons k0 ks ih =>
    rcases List.mem_cons.mp hk with rfl | hk'
    · cases k with
      | nil => exact absurd rfl hne
      | cons a ps => exact matchKeyAt_cons_hit ks hs
    · cases k0 with
      | nil =>
        rw [matchKeyAt_cons_nil_key]
        exact ih hk' fun k' h1 h2 h3 => hothers k' (List.mem_cons_of_mem _ h1) h2 h3
      | cons b qs =>
        by_cases he : (b :: qs) = k
        · subst he
          exact matchKeyAt_cons_hit ks hs
        · rw [matchKeyAt_cons_miss _
            (hothers _ (List.mem_cons_self _ _) he (by simp))]
          exact ih hk' fun k' h1 h2 h3 => hothers k' (List.mem_cons_of_mem _ h1) h2 h3

/-- A single-rune alternation matches a listed head rune and consumes
exactly it. -/
theorem matchKeyAt_single_runes {keys : List (List Nat)} {c : Nat}
    {rest : List Nat} (hall : ∀ k ∈ keys, ∃ r, k = [r]) (hc : [c] ∈ keys) :
    matchKeyAt keys (c :: rest) = some ([c], rest) := by
  induction keys with
  | nil => cases hc
  | cons k0 ks ih =>
    obtain ⟨r, rfl⟩ := hall k0 (List.mem_cons_self _ _)
    by_cases hrc : r = c
    · subst hrc
      refine matchKeyAt_cons_hit ks ?_
      rw [stripSeg_cons_cons, beq_self_eq_true, cond_true, stripSeg_nil]
    · rw [matchKeyAt_cons_miss _ (by
        rw [stripSeg_cons_cons, beq_eq_false_iff_ne.mpr hrc, cond_false])]
      rcases List.mem_cons.mp hc with heq | h'
      · exact absurd (by simpa using heq.symm) hrc
      · exact ih (fun k' hk' => hall k' (List.mem_cons_of_mem _ hk')) h'

/-- A single-rune alternation fails on a head rune that is not listed. -/
theorem matchKeyAt_single_not_mem {keys : List (List Nat)} {c : Nat}
    {rest : List Nat} (hall : ∀ k ∈ keys, ∃ r, k = [r]) (hn : [c] ∉ keys) :
    matchKeyAt keys (c :: rest) = none := by
  refine matchKeyAt_none fun k hk _ => ?_
  obtain ⟨r, rfl⟩ := hall k hk
  have hrc : r ≠ c := fun h => hn (h ▸ hk)
  rw [stripSeg_cons_cons, beq_eq_false_iff_ne.mpr hrc, cond_false]

/-- An alternation fails on the empty string (empty alternatives are
skipped by the scan). -/
theorem matchKeyAt_str_nil {keys : List (List Nat)} :
    matchKeyAt keys [] = none := by
  refine matchKeyAt_none fun k _ hne => ?_
  cases k with
  | nil => exact absurd rfl hne
  | cons a ps => exact stripSeg_cons_nil a ps

/-- An alternation whose keys all start at or above `lo` fails on a head
rune below `lo`. -/
theorem matchKeyAt_head_lt {keys : List (List Nat)} {c : Nat}
    {rest : List Nat} (lo : Nat)
    (hall : ∀ k ∈ keys, lo ≤ k.headD lo) (hc : c < lo) :
    matchKeyAt keys (c :: rest) = none := by
  refine matchKeyAt_none fun k hk hne => ?_
  cases k with
  | nil => exact absurd rfl hne
  | cons a t =>
    have ha : lo ≤ a := by simpa using hall _ hk
    have hne' : a ≠ c := by omega
    rw [stripSeg_cons_cons, beq_eq_false_iff_ne.mpr hne', cond_false]

/-- findModifiedGlyphsAux on the empty string. -/
theorem findModifiedGlyphsAux_str_nil (keys mods : List (List Nat))
    (f : Nat) (fs : List Nat) :
    findModifiedGlyphsAux keys mods (f :: fs) [] = [] := rfl

/-- findModifiedGlyphsAux advances one position when no glyph matches. -/
theorem findModifiedGlyphsAux_cons_none (keys mods : List (List Nat))
    (f : Nat) (fs : List Nat) (c : Nat) (rest : List Nat)
    (h : matchKeyAt keys (c :: rest) = none) :
    findModifiedGlyphsAux keys mods (f :: fs) (c :: rest) =
      findModifiedGlyphsAux keys mods fs rest := by
  show (match matchKeyAt keys (c :: rest) with
        | some (k, rest1) =>
          match matchKeyAt mods rest1 with
          | some (m, rest2) => (k, m) :: findModifiedGlyphsAux keys mods fs rest2
          | none => findModifiedGlyphsAux keys mods fs rest
        | none => findModifiedGlyphsAux keys mods fs rest) = _
  rw [h]

/-- findModifiedGlyphsAux advances one position when a glyph matches but
no modifier follows it. -/
theorem findModifiedGlyphsAux_cons_nomod (keys mods : List (List Nat))
    (f : Nat) (fs : List Nat) (c : Nat) (rest : List Nat)
    {k rest1 : List Nat} (h : matchKeyAt keys (c :: rest) = some (k, rest1))
    (h2 : matchKeyAt mods rest1 = none) :
    findModifiedGlyphsAux keys mods (f :: fs) (c :: rest) =
      findModifiedGlyphsAux keys mods fs rest := by
  show (match matchKeyAt keys (c :: rest) with
        | some (k, rest1) =>
          match matchKeyAt mods rest1 with
          | some (m, rest2) => (k, m) :: findModifiedGlyphsAux keys mods fs rest2
          | none => findModifiedGlyphsAux keys mods fs rest
        | none => findModifiedGlyphsAux keys mods fs rest) = _
  rw [h]
  show (match matchKeyAt mods rest1 with
        | some (m, rest2) => (k, m) :: findModifiedGlyphsAux keys mods fs rest2
        | none => findModifiedGlyphsAux keys mods fs rest) = _
  rw [h2]

/-- The match scan finds nothing when no position carries a full
glyph-plus-modifier match. -/
theorem findModifiedGlyphs_nil_of {keys mods : List (List Nat)}
    {s : List Nat}
    (h : ∀ t : List Nat, t <:+ s → t ≠ [] →
      matchKeyAt keys t = none ∨
      ∃ k rest1, matchKeyAt keys t = some (k, rest1) ∧
        matchKeyAt mods rest1 = none) :
    findModifiedGlyphs keys mods s = [] := by
  suffices H : ∀ fuel s' : List Nat, s'.length ≤ fuel.length → s' <:+ s →
      findModifiedGlyphsAux keys mods fuel s' = [] from H s s le_rfl List.suffix_rfl
  intro fuel
  induction fuel with
  | nil =>
    intro s' hl _
    cases s' with
    | nil => rfl
    | cons c rest => simp at hl
  | cons f fs ih =>
    intro s' hl hsuf
    cases s' with
    | nil => rfl
    | cons c rest =>
      simp only [List.length_cons, Nat.succ_le_succ_iff] at hl
      have hrest : rest <:+ s := (List.suffix_cons c rest).trans hsuf
      rcases h (c :: rest) hsuf (by simp) with hnone | ⟨k, rest1, hk, hm⟩
      · rw [findModifiedGlyphsAux_cons_none _ _ _ _ _ _ hnone]
        exact ih rest hl hrest
      · rw [findModifiedGlyphsAux_cons_nomod _ _ _ _ _ _ hk hm]
        exact ih rest hl hrest

/-- When the matcher finds nothing, replaceModifiedGlyphs is the
identity. -/
theorem replaceModifiedGlyphs_no_match {t : List (List Nat × List Nat)}
    {keys : List (List Nat)} {s : List Nat}
    (h : findModifiedGlyphs keys modifierKeys s = []) :
    replaceModifiedGlyphs t keys s = s := by
  unfold replaceModifiedGlyphs
  rw [h]

/-! Table-level facts used by the compound-precedence proof; every one is
a finite check over the literal glyph tables. -/

/-- Every consonant key is a single rune. -/
theorem consonants_single : ∀ q ∈ consonants, q.1.length = 1 := by decide

/-- Every compound key has at least two runes. -/
theorem compound_key_len : ∀ p ∈ compounds, 2 ≤ p.1.length := by decide

/-- Every generated compound alternative has at least two runes. -/
theorem compoundKeys_len : ∀ k ∈ compoundKeys, 2 ≤ k.length := by decide

/-- Compound-key runes are Kannada, not white space, and at least 3202. -/
theorem compound_key_runes :
    ∀ p ∈ compounds, ∀ a ∈ p.1,
      isKannada a = true ∧ isGoSpace a = false ∧ 3202 ≤ a := by decide

/-- Consonant-key runes are Kannada, not white space, and at least 3202. -/
theorem consonant_key_runes :
    ∀ q ∈ consonants, ∀ a ∈ q.1,
      isKannada a = true ∧ isGoSpace a = false ∧ 3202 ≤ a := by decide

/-- Compound codes are ASCII alphanumeric. -/
theorem compound_values_alnum :
    ∀ p ∈ compounds, ∀ a ∈ p.2, isAlphaNumUpper a = true := by decide

/-- Consonant codes are ASCII alphanumeric. -/
theorem consonant_values_alnum :
    ∀ q ∈ consonants, ∀ a ∈ q.2, isAlphaNumUpper a = true := by decide

/-- Every modifier key is a single rune. -/
theorem modifier_keys_single : ∀ m ∈ modifierKeys, m.length = 1 := by decide

/-- Modifier-key runes are at least 3202. -/
theorem modifier_key_runes : ∀ m ∈ modifierKeys, ∀ a ∈ m, 3202 ≤ a := by decide

/-- Head runes of the consonant alternation are at least 3202. -/
theorem consonantKeys_headD : ∀ k ∈ consonantKeys, 3202 ≤ k.headD 3202 := by decide

/-- Every generated consonant alternative is a single rune. -/
theorem consonantKeys_single : ∀ k ∈ consonantKeys, k.length = 1 := by decide

/-- Head runes of the vowel alternation are at least 3202. -/
theorem vowelKeys_headD : ∀ k ∈ vowelKeys, 3202 ≤ k.headD 3202 := by decide

/-- Every generated vowel alternative is a single rune. -/
theorem vowelKeys_single : ∀ k ∈ vowelKeys, k.length = 1 := by decide

/-- No consonant key is a modifier key. -/
theorem consonant_not_modifier : ∀ q ∈ consonants, q.1 ∉ modifierKeys := by decide

/-- No consonant key is a vowel key. -/
theorem consonant_not_vowel : ∀ q ∈ consonants, q.1 ∉ vowelKeys := by decide

/-- Compound keys are pairwise distinct. -/
theorem compound_keys_nodup : (compounds.map (fun p => p.1)).Nodup := by decide

/-- Consonant keys are pairwise distinct. -/
theorem consonant_keys_nodup : (consonants.map (fun q => q.1)).Nodup := by decide

/-- The key of any other compound entry does not occur anywhere in a
compound key followed by a consonant key. -/
theorem compound_no_occur_other :
    ∀ p ∈ compounds, ∀ q ∈ consonants, ∀ e ∈ compounds,
      e.1 = p.1 ∨ occursB e.1 (p.1 ++ q.1) = false := by decide

/-- A compound key occurs in itself-plus-consonant only at the very first
position: it does not occur in the tail. -/
theorem compound_self_tail :
    ∀ p ∈ compounds, ∀ q ∈ consonants,
      occursB p.1 (p.1.tail ++ q.1) = false := by decide

/-- A list of length one is a singleton. -/
theorem len1_shape {l : List Nat} (h : l.length = 1) : ∃ r, l = [r] := by
  cases l with
  | nil => simp at h
  | cons a t =>
    cases t with
    | nil => exact ⟨a, rfl⟩
    | cons b t' => simp at h

/-- Alphanumeric runes are below 3202. -/
theorem alnum_lt {a : Nat} (h : isAlphaNumUpper a = true) : a < 3202 := by
  simp only [isAlphaNumUpper, Bool.or_eq_true, Bool.and_eq_true,
    decide_eq_true_eq] at h
  omega

/-- wrapBraces as a plain append. -/
theorem wrapBraces_eq {v : List Nat} :
    wrapBraces v = lbrace :: (v ++ [rbrace]) := by
  rw [wrapBraces, cat_eq_append]

/-- Elements of a brace-wrapped alphanumeric code are below 3202. -/
theorem wrap_mem_lt {v : List Nat} (hv : ∀ a ∈ v, isAlphaNumUpper a = true) :
    ∀ a ∈ wrapBraces v, a < 3202 := by
  intro a ha
  rw [wrapBraces_eq] at ha
  rcases List.mem_cons.mp ha with rfl | ha'
  · decide
  · rcases List.mem_append.mp ha' with hv' | hb
    · exact alnum_lt (hv _ hv')
    · rw [List.mem_singleton] at hb
      subst hb
      decide

/-- contains is false for a rune above every element. -/
theorem contains_false_of_lt {s : List Nat} {r lo : Nat}
    (hs : ∀ a ∈ s, a < lo) (hr : lo ≤ r) : s.contains r = false := by
  cases hb : s.contains r with
  | false => rfl
  | true =>
    have hm : r ∈ s := List.elem_iff.mp hb
    have := hs r hm
    omega

/-- A proper suffix of a cons cell is a suffix of the tail. -/
theorem suffix_of_ne {t kt : List Nat} {kh : Nat} (h : t <:+ kh :: kt)
    (hne : t ≠ kh :: kt) : t <:+ kt :=
  (List.suffix_cons_iff.mp h).resolve_left hne

/-- Suffix decomposition of a string extended by one rune. -/
theorem suffix_append_single {t x : List Nat} {c : Nat}
    (h : t <:+ x ++ [c]) :
    t = [] ∨ t = [c] ∨ ∃ t', t' <:+ x ∧ t' ≠ [] ∧ t = t' ++ [c] := by
  induction x generalizing t with
  | nil =>
    rcases List.suffix_cons_iff.mp h with rfl | h'
    · exact Or.inr (Or.inl rfl)
    · rw [List.suffix_nil] at h'
      exact Or.inl h'
  | cons x0 x' ih =>
    rcases List.suffix_cons_iff.mp h with rfl | h'
    · exact Or.inr (Or.inr ⟨x0 :: x', List.suffix_rfl, by simp, by simp⟩)
    · rcases ih h' with h0 | h1 | ⟨t', ht', hne, rfl⟩
      · exact Or.inl h0
      · exact Or.inr (Or.inl h1)
      · exact Or.inr (Or.inr ⟨t', ht'.trans (List.suffix_cons x0 x'), hne, rfl⟩)

/-- Entries on either side of a table split have keys different from the
split entry, when the keys are pairwise distinct. -/
theorem split_key_ne {l t1 t2 : List (List Nat × List Nat)}
    {a : List Nat × List Nat}
    (hnd : (l.map (fun p => p.1)).Nodup) (hsp : l = t1 ++ a :: t2) :
    (∀ e ∈ t1, e.1 ≠ a.1) ∧ (∀ e ∈ t2, e.1 ≠ a.1) := by
  subst hsp
  rw [List.map_append, List.map_cons, List.nodup_middle] at hnd
  have h1 := (List.nodup_cons.mp hnd).1
  rw [List.mem_append] at h1
  constructor
  · intro e he heq
    exact h1 (Or.inl (heq ▸ List.mem_map_of_mem _ he))
  · intro e he heq
    exact h1 (Or.inr (heq ▸ List.mem_map_of_mem _ he))

/-- replaceTableWrapped over a table append is sequential composition. -/
theorem replaceTableWrapped_append (t1 t2 : List (List Nat × List Nat))
    (s : List Nat) :
    replaceTableWrapped (t1 ++ t2) s =
      replaceTableWrapped t2 (replaceTableWrapped t1 s) := by
  induction t1 generalizing s with
  | nil => rfl
  | cons p t' ih =>
    rw [List.cons_append, replaceTableWrapped_cons, replaceTableWrapped_cons, ih]

/-- dropWhile is the identity when no element satisfies the predicate. -/
theorem dropWhile_eq_self_of {p : Nat → Bool} {l : List Nat}
    (h : ∀ a ∈ l, p a = false) : l.dropWhile p = l := by
  cases l with
  | nil => rfl
  | cons a t =>
    rw [List.dropWhile_cons, h a (List.mem_cons_self a t)]
    simp

/-- trimSpace leaves a space-free string unchanged. -/
theorem trimSpace_eq_self {s : List Nat} (h : ∀ a ∈ s, isGoSpace a = false) :
    trimSpace s = s := by
  unfold trimSpace
  rw [dropWhile_eq_self_of h,
    dropWhile_eq_self_of fun a ha => h a (List.mem_reverse.mp ha),
    List.reverse_reverse]

/-- The cleanup filter recovers exactly the code from its wrapped form. -/
theorem filter_wrap {v : List Nat} (hv : ∀ a ∈ v, isAlphaNumUpper a = true) :
    (wrapBraces v).filter isAlphaNumUpper = v := by
  rw [wrapBraces_eq, List.filter_cons_of_neg (by decide), List.filter_append,
    List.filter_eq_self.mpr hv,
    show List.filter isAlphaNumUpper [rbrace] = [] from rfl, List.append_nil]

/-- Every vowel key is a single rune. -/
theorem vowels_single : ∀ e ∈ vowels, e.1.length = 1 := by decide

/-- Vowel-key runes are at least 3202. -/
theorem vowels_key_runes : ∀ e ∈ vowels, ∀ a ∈ e.1, 3202 ≤ a := by decide

/-- Every modifier-table key is a single rune. -/
theorem modifiers_single : ∀ m ∈ modifiers, m.1.length = 1 := by decide

/-- Modifier-table key runes are at least 3202. -/
theorem modifiers_key_runes : ∀ m ∈ modifiers, ∀ a ∈ m.1, 3202 ≤ a := by decide

/-- contains is false for a rune that is not an element. -/
theorem contains_false_of_not_mem {s : List Nat} {r : Nat} (h : r ∉ s) :
    s.contains r = false := by
  cases hb : s.contains r with
  | false => rfl
  | true => exact absurd (List.elem_iff.mp hb) h

/-- Appending on the right preserves the suffix relation. -/
theorem suffix_append_right {t x : List Nat} (y : List Nat) (h : t <:+ x) :
    t ++ y <:+ x ++ y := by
  obtain ⟨u, hu⟩ := h
  exact ⟨u, by rw [← hu, List.append_assoc]⟩

/-- A key of at least two runes whose head is not in `x` does not occur
in `x` extended by one rune. -/
theorem occursB_append_single {o : Nat} {os x : List Nat} (c : Nat)
    (ho : o ∉ x) (hos : os ≠ []) : occursB (o :: os) (x ++ [c]) = false := by
  induction x with
  | nil =>
    rw [List.nil_append, occursB_cons, occursB_nil, Bool.or_false,
      stripSeg_cons_cons]
    cases hoc : o == c with
    | false => rw [cond_false]; rfl
    | true =>
      rw [cond_true]
      cases os with
      | nil => exact absurd rfl hos
      | cons a as => rw [stripSeg_cons_nil]; rfl
  | cons x0 x' ih =>
    rw [List.cons_append, occursB_cons]
    have hne : o ≠ x0 := fun h => ho (h ▸ List.mem_cons_self x0 x')
    rw [stripSeg_cons_cons, beq_eq_false_iff_ne.mpr hne, cond_false]
    simp only [Option.isSome_none, Bool.false_or]
    exact ih fun h => ho (List.mem_cons_of_mem _ h)

/-- A compound key is one of the compound alternatives. -/
theorem mem_compoundKeys {p : List Nat × List Nat} (hp : p ∈ compounds) :
    p.1 ∈ compoundKeys := by
  rw [compoundKeys_src]
  exact List.mem_map_of_mem _ hp

/-- A compound key is nonempty. -/
theorem compound_key_ne_nil {p : List Nat × List Nat} (hp : p ∈ compounds) :
    p.1 ≠ [] := by
  have := compound_key_len p hp
  intro h
  rw [h] at this
  simp at this

/-- Stage 1: the compound-with-modifier matcher finds nothing in a
compound key followed by a bare consonant — the compound at position 0 is
matched but no modifier follows it, and no alternative matches at any
later position. -/
theorem stage1_no_match (p : List Nat × List Nat) (hp : p ∈ compounds)
    (q : List Nat × List Nat) (hq : q ∈ consonants) :
    findModifiedGlyphs compoundKeys modifierKeys (p.1 ++ q.1) = [] := by
  obtain ⟨c, hc⟩ := len1_shape (consonants_single q hq)
  rw [hc]
  refine findModifiedGlyphs_nil_of fun t ht htne => ?_
  rcases suffix_append_single ht with rfl | rfl | ⟨t', ht', htne', rfl⟩
  · exact absurd rfl htne
  · -- position of the lone consonant: every compound alternative is too long
    refine Or.inl (matchKeyAt_none fun k' hk' _ => ?_)
    apply stripSeg_none_of_short
    have := compoundKeys_len k' hk'
    simp only [List.length_cons, List.length_nil]
    omega
  · by_cases he : t' = p.1
    · subst he
      refine Or.inr ⟨p.1, [c], ?_, ?_⟩
      · refine matchKeyAt_unique (mem_compoundKeys hp) (compound_key_ne_nil hp)
          (stripSeg_self_append _ _) fun k' hk' hne1 _ => ?_
        rw [compoundKeys_src] at hk'
        obtain ⟨e, he', heq⟩ := List.mem_map.mp hk'
        rcases compound_no_occur_other p hp q hq e he' with heq1 | hocc
        · exact absurd (heq ▸ heq1) hne1
        · rw [hc] at hocc
          rw [← heq]
          exact stripSeg_none_of_not_occurs hocc List.suffix_rfl (by simp)
      · refine matchKeyAt_single_not_mem
          (fun m hm => len1_shape (modifier_keys_single m hm)) ?_
        have := consonant_not_modifier q hq
        rw [hc] at this
        exact this
    · refine Or.inl (matchKeyAt_none fun k' hk' _ => ?_)
      rw [compoundKeys_src] at hk'
      obtain ⟨e, he', heq⟩ := List.mem_map.mp hk'
      have hsufx : t' ++ [c] <:+ p.1 ++ [c] := suffix_append_right [c] ht'
      by_cases hek : e.1 = p.1
      · rw [← heq, hek]
        have hself := compound_self_tail p hp q hq
        rw [hc] at hself
        -- t' is a proper suffix of p.1, hence a suffix of its tail
        have hk2 := compound_key_len p hp
        cases hkk : p.1 with
        | nil => rw [hkk] at hk2; simp at hk2
        | cons kh kt =>
          rw [hkk] at ht' he
          have ht'' : t' <:+ kt := suffix_of_ne ht' he
          have : t' ++ [c] <:+ kt ++ [c] := suffix_append_right [c] ht''
          rw [hkk] at hself
          exact stripSeg_none_of_not_occurs hself (by simpa using this) (by simp)
      · rcases compound_no_occur_other p hp q hq e he' with h1 | hocc
        · exact absurd h1 hek
        · rw [hc] at hocc
          rw [← heq]
          exact stripSeg_none_of_not_occurs hocc hsufx (by simp)

/-- Stage 2: the compound-alone pass on a compound key followed by a bare
consonant replaces exactly the compound, brace-wrapped, and leaves the
consonant alone. -/
theorem stage2_fire (p : List Nat × List Nat) (hp : p ∈ compounds)
    (q : List Nat × List Nat) (hq : q ∈ consonants) :
    replaceTableWrapped compounds (p.1 ++ q.1) = wrapBraces p.2 ++ q.1 := by
  obtain ⟨c, hc⟩ := len1_shape (consonants_single q hq)
  obtain ⟨t1, t2, hsp⟩ := List.append_of_mem hp
  have hkeys := split_key_ne compound_keys_nodup hsp
  have hsub1 : ∀ e ∈ t1, e ∈ compounds := fun e he => by
    rw [hsp]
    exact List.mem_append_left _ he
  have hsub2 : ∀ e ∈ t2, e ∈ compounds := fun e he => by
    rw [hsp]
    exact List.mem_append_right _ (List.mem_cons_of_mem _ he)
  have h1 : replaceTableWrapped t1 (p.1 ++ q.1) = p.1 ++ q.1 :=
    replaceTableWrapped_no_occur fun e he => by
      rcases compound_no_occur_other p hp q hq e (hsub1 e he) with h1 | h2
      · exact absurd h1 (hkeys.1 e he)
      · exact h2
  have h2 : replaceAll (p.1 ++ q.1) p.1 (wrapBraces p.2) =
      wrapBraces p.2 ++ q.1 := by
    have hk2 := compound_key_len p hp
    cases hkk : p.1 with
    | nil => rw [hkk] at hk2; simp at hk2
    | cons o os =>
      rw [List.cons_append]
      have hstr : stripSeg (o :: os) (o :: (os ++ q.1)) = some q.1 := by
        have := stripSeg_self_append (o :: os) q.1
        rwa [List.cons_append] at this
      rw [replaceAll_head_match _ hstr,
        replaceAll_no_occur _ (occursB_of_long (by
          rw [hc]
          rw [hkk] at hk2
          simp only [List.length_cons, List.length_nil]
          simp at hk2
          omega)),
        cat_eq_append]
  have h3 : replaceTableWrapped t2 (wrapBraces p.2 ++ q.1) =
      wrapBraces p.2 ++ q.1 :=
    replaceTableWrapped_no_occur fun e he => by
      have he' := hsub2 e he
      have hlen := compound_key_len e he'
      cases hke : e.1 with
      | nil => rw [hke] at hlen; simp at hlen
      | cons eh et =>
        have het : et ≠ [] := by
          rw [hke] at hlen
          simp only [List.length_cons] at hlen
          intro h
          rw [h] at hlen
          simp at hlen
        have hehm : eh ∈ e.1 := by
          rw [hke]
          exact List.mem_cons_self _ _
        have heh : 3202 ≤ eh := (compound_key_runes e he' eh hehm).2.2
        rw [hc]
        apply occursB_append_single
        · intro hmem
          have := wrap_mem_lt (compound_values_alnum p hp) eh hmem
          omega
        · exact het
  rw [hsp, replaceTableWrapped_append, h1, replaceTableWrapped_cons, h2, h3]

/-- Stage 3: the consonant-with-modifier matcher finds nothing in the
wrapped compound code followed by a bare consonant (the consonant matches
at the last position but the string ends there, with no modifier). -/
theorem stage3_no_match (p : List Nat × List Nat) (hp : p ∈ compounds)
    (q : List Nat × List Nat) (hq : q ∈ consonants) :
    findModifiedGlyphs consonantKeys modifierKeys
      (wrapBraces p.2 ++ q.1) = [] := by
  obtain ⟨c, hc⟩ := len1_shape (consonants_single q hq)
  rw [hc]
  refine findModifiedGlyphs_nil_of fun t ht htne => ?_
  rcases suffix_append_single ht with rfl | rfl | ⟨t', ht', htne', rfl⟩
  · exact absurd rfl htne
  · refine Or.inr ⟨[c], [], ?_, matchKeyAt_str_nil⟩
    refine matchKeyAt_single_runes
      (fun k hk => len1_shape (consonantKeys_single k hk)) ?_
    rw [← hc, consonantKeys_src]
    exact List.mem_map_of_mem _ hq
  · cases t' with
    | nil => exact absurd rfl htne'
    | cons a t'' =>
      obtain ⟨u, hu⟩ := ht'
      have ha : a ∈ wrapBraces p.2 := by
        rw [← hu]
        exact List.mem_append_right _ (List.mem_cons_self _ _)
      have hlt := wrap_mem_lt (compound_values_alnum p hp) a ha
      rw [List.cons_append]
      exact Or.inl (matchKeyAt_head_lt 3202 consonantKeys_headD hlt)

/-- Stage 4: the vowel-with-modifier matcher finds nothing in the wrapped
compound code followed by a bare consonant. -/
theorem stage4_no_match (p : List Nat × List Nat) (hp : p ∈ compounds)
    (q : List Nat × List Nat) (hq : q ∈ consonants) :
    findModifiedGlyphs vowelKeys modifierKeys (wrapBraces p.2 ++ q.1) = [] := by
  obtain ⟨c, hc⟩ := len1_shape (consonants_single q hq)
  rw [hc]
  refine findModifiedGlyphs_nil_of fun t ht htne => ?_
  rcases suffix_append_single ht with rfl | rfl | ⟨t', ht', htne', rfl⟩
  · exact absurd rfl htne
  · refine Or.inl (matchKeyAt_single_not_mem
      (fun k hk => len1_shape (vowelKeys_single k hk)) ?_)
    have hnv := consonant_not_vowel q hq
    rw [hc] at hnv
    exact hnv
  · cases t' with
    | nil => exact absurd rfl htne'
    | cons a t'' =>
      obtain ⟨u, hu⟩ := ht'
      have ha : a ∈ wrapBraces p.2 := by
        rw [← hu]
        exact List.mem_append_right _ (List.mem_cons_self _ _)
      have hlt := wrap_mem_lt (compound_values_alnum p hp) a ha
      rw [List.cons_append]
      exact Or.inl (matchKeyAt_head_lt 3202 vowelKeys_headD hlt)

/-- Stage 5: the consonant-alone pass replaces exactly the trailing
consonant, brace-wrapped, and leaves the ASCII part alone. -/
theorem stage5_fire (p : List Nat × List Nat) (hp : p ∈ compounds)
    (q : List Nat × List Nat) (hq : q ∈ consonants) :
    replaceTableWrapped consonants (wrapBraces p.2 ++ q.1) =
      wrapBraces p.2 ++ wrapBraces q.2 := by
  obtain ⟨c, hc⟩ := len1_shape (consonants_single q hq)
  obtain ⟨t1, t2, hsp⟩ := List.append_of_mem hq
  have hkeys := split_key_ne consonant_keys_nodup hsp
  have hsub1 : ∀ e ∈ t1, e ∈ consonants := fun e he => by
    rw [hsp]
    exact List.mem_append_left _ he
  have hsub2 : ∀ e ∈ t2, e ∈ consonants := fun e he => by
    rw [hsp]
    exact List.mem_append_right _ (List.mem_cons_of_mem _ he)
  have hwv := wrap_mem_lt (compound_values_alnum p hp)
  have hc32 : 3202 ≤ c := by
    have := consonant_key_runes q hq c (by rw [hc]; exact List.mem_cons_self _ _)
    exact this.2.2
  have h1 : replaceTableWrapped t1 (wrapBraces p.2 ++ q.1) =
      wrapBraces p.2 ++ q.1 :=
    replaceTableWrapped_no_occur fun e he => by
      obtain ⟨r, hr⟩ := len1_shape (consonants_single e (hsub1 e he))
      have hrc : r ≠ c := by
        intro h
        apply hkeys.1 e he
        rw [hr, hc, h]
      have hr32 : 3202 ≤ r :=
        (consonant_key_runes e (hsub1 e he) r
          (by rw [hr]; exact List.mem_cons_self _ _)).2.2
      rw [hr, hc, occursB_single]
      apply contains_false_of_not_mem
      intro hm
      rcases List.mem_append.mp hm with h1 | h2
      · have := hwv r h1
        omega
      · rw [List.mem_singleton] at h2
        exact hrc h2
  have h2 : replaceAll (wrapBraces p.2 ++ q.1) q.1 (wrapBraces q.2) =
      wrapBraces p.2 ++ wrapBraces q.2 := by
    rw [hc]
    apply replaceAll_append_last
    intro hm
    have := hwv c hm
    omega
  have h3 : replaceTableWrapped t2 (wrapBraces p.2 ++ wrapBraces q.2) =
      wrapBraces p.2 ++ wrapBraces q.2 :=
    replaceTableWrapped_no_occur fun e he => by
      obtain ⟨r, hr⟩ := len1_shape (consonants_single e (hsub2 e he))
      have hr32 : 3202 ≤ r :=
        (consonant_key_runes e (hsub2 e he) r
          (by rw [hr]; exact List.mem_cons_self _ _)).2.2
      rw [hr, occursB_single]
      refine contains_false_of_lt (fun a ha => ?_) hr32
      rcases List.mem_append.mp ha with h1 | h2
      · exact hwv a h1
      · exact wrap_mem_lt (consonant_values_alnum q hq) a h2
  rw [hsp, replaceTableWrapped_append, h1, replaceTableWrapped_cons, h2, h3]

/-- Stage 6: the vowel-alone pass does not touch the wrapped codes. -/
theorem stage6_no_occur (p : List Nat × List Nat) (hp : p ∈ compounds)
    (q : List Nat × List Nat) (hq : q ∈ consonants) :
    replaceTableWrapped vowels (wrapBraces p.2 ++ wrapBraces q.2) =
      wrapBraces p.2 ++ wrapBraces q.2 :=
  replaceTableWrapped_no_occur fun e he => by
    obtain ⟨r, hr⟩ := len1_shape (vowels_single e he)
    have hr32 : 3202 ≤ r :=
      vowels_key_runes e he r (by rw [hr]; exact List.mem_cons_self _ _)
    rw [hr, occursB_single]
    refine contains_false_of_lt (fun a ha => ?_) hr32
    rcases List.mem_append.mp ha with h1 | h2
    · exact wrap_mem_lt (compound_values_alnum p hp) a h1
    · exact wrap_mem_lt (consonant_values_alnum q hq) a h2

/-- Stage 7: the modifier pass does not touch the wrapped codes. -/
theorem stage7_no_occur (p : List Nat × List Nat) (hp : p ∈ compounds)
    (q : List Nat × List Nat) (hq : q ∈ consonants) :
    replaceTablePlain modifiers (wrapBraces p.2 ++ wrapBraces q.2) =
      wrapBraces p.2 ++ wrapBraces q.2 :=
  replaceTablePlain_no_occur fun m hm => by
    obtain ⟨r, hr⟩ := len1_shape (modifiers_single m hm)
    have hr32 : 3202 ≤ r :=
      modifiers_key_runes m hm r (by rw [hr]; exact List.mem_cons_self _ _)
    rw [hr, occursB_single]
    refine contains_false_of_lt (fun a ha => ?_) hr32
    rcases List.mem_append.mp ha with h1 | h2
    · exact wrap_mem_lt (compound_values_alnum p hp) a h1
    · exact wrap_mem_lt (consonant_values_alnum q hq) a h2

/-- C5: compound clusters take precedence over their constituent single
consonants: the compound passes run before any single-consonant
substitution, so for every compound-table entry followed by any
consonant-table entry (in particular one that is a prefix of another
compound), Encode's pipeline resolves the cluster to the compound's code
followed by the consonant's code — never to a constituent consonant's
code with leftover characters. -/
theorem compound_precedence (p : List Nat × List Nat) (hp : p ∈ compounds)
    (q : List Nat × List Nat) (hq : q ∈ consonants) :
    process (p.1 ++ q.1) = p.2 ++ q.2 := by
  have hmemr : ∀ a ∈ p.1 ++ q.1, isKannada a = true ∧ isGoSpace a = false := by
    intro a ha
    rcases List.mem_append.mp ha with h1 | h2
    · exact ⟨(compound_key_runes p hp a h1).1, (compound_key_runes p hp a h1).2.1⟩
    · exact ⟨(consonant_key_runes q hq a h2).1, (consonant_key_runes q hq a h2).2.1⟩
  have htrim : trimSpace (p.1 ++ q.1) = p.1 ++ q.1 :=
    trimSpace_eq_self fun a ha => (hmemr a ha).2
  have hfil : (p.1 ++ q.1).filter isKannada = p.1 ++ q.1 :=
    List.filter_eq_self.mpr fun a ha => (hmemr a ha).1
  have hs1 : replaceModifiedGlyphs compounds compoundKeys (p.1 ++ q.1) =
      p.1 ++ q.1 :=
    replaceModifiedGlyphs_no_match (stage1_no_match p hp q hq)
  have hs2 := stage2_fire p hp q hq
  have hs3 : replaceModifiedGlyphs consonants consonantKeys
      (wrapBraces p.2 ++ q.1) = wrapBraces p.2 ++ q.1 :=
    replaceModifiedGlyphs_no_match (stage3_no_match p hp q hq)
  have hs4 : replaceModifiedGlyphs vowels vowelKeys
      (wrapBraces p.2 ++ q.1) = wrapBraces p.2 ++ q.1 :=
    replaceModifiedGlyphs_no_match (stage4_no_match p hp q hq)
  have hs5 := stage5_fire p hp q hq
  have hs6 := stage6_no_occur p hp q hq
  have hs7 := stage7_no_occur p hp q hq
  show processScrubbed ((trimSpace (p.1 ++ q.1)).filter isKannada) = p.2 ++ q.2
  rw [htrim, hfil]
  show (replaceTablePlain modifiers
      (replaceTableWrapped vowels
        (replaceTableWrapped consonants
          (replaceModifiedGlyphs vowels vowelKeys
            (replaceModifiedGlyphs consonants consonantKeys
              (replaceTableWrapped compounds
                (replaceModifiedGlyphs compounds compoundKeys
                  (p.1 ++ q.1)))))))).filter isAlphaNumUpper = p.2 ++ q.2
  rw [hs1, hs2, hs3, hs4, hs5, hs6, hs7, List.filter_append,
    filter_wrap (compound_values_alnum p hp),
    filter_wrap (consonant_values_alnum q hq)]

/-- Witness for C5: the compound ಕ್ಕ followed by the consonant ದ — a
consonant that is itself the first rune of the compounds ದ್ದ and ದ್ಧ —
encodes as the compound code K2 followed by the consonant code 0. -/
theorem compound_precedence_witness :
    ((runes "ಕ್ಕ", runes "K2") ∈ compounds ∧
      (runes "ದ", runes "0") ∈ consonants) ∧
    process (runes "ಕ್ಕ" ++ runes "ದ") = runes "K2" ++ runes "0" :=
  ⟨⟨by decide, by decide⟩,
    compound_precedence (runes "ಕ್ಕ", runes "K2") (by decide)
      (runes "ದ", runes "0") (by decide)⟩

end TLPhone
